import Mathlib

/-!
Shallow embedding of the reconciliation core of the two marketplace
synchronisation scripts (`seller.py` for the Ozon integration,
`market.py` for the Yandex.Market integration).

The feed rows, offer-identifier collections and derived stock/price
entries are modelled as explicit data; the destructive mutation of the
identifier collection performed by `create_stocks` is modelled by
returning the final state of the collection alongside the produced
entries.  Fallible operations (Python `int(...)` on a malformed string,
`divide` with step 0, a pagination loop that never terminates) are
modelled in `Option`.
-/

/-- One row of the inventory feed.  `kod` is the product code field
("Код"), `kolichestvo` the quantity descriptor ("Количество"),
`tsena` the price descriptor ("Цена"). -/
structure Watch where
  kod : String
  kolichestvo : String
  tsena : String
deriving DecidableEq

/-- Numeric value of a list of decimal digit characters. -/
def digitsVal (l : List Char) : Nat :=
  l.foldl (fun n c => 10 * n + (c.toNat - 48)) 0

/-- Strip leading and trailing whitespace from a character list. -/
def stripWS (l : List Char) : List Char :=
  ((l.dropWhile Char.isWhitespace).reverse.dropWhile Char.isWhitespace).reverse

/-- Python `int(...)` applied to a stripped character list: an optional
sign followed by a non-empty run of decimal digits; anything else raises
(modelled as `none`). -/
def pyIntChars : List Char → Option Int
  | [] => none
  | c :: cs =>
    if c = '-' then
      if !cs.isEmpty && cs.all Char.isDigit then some (-(digitsVal cs : Int)) else none
    else if c = '+' then
      if !cs.isEmpty && cs.all Char.isDigit then some (digitsVal cs : Int) else none
    else
      if (c :: cs).all Char.isDigit then some (digitsVal (c :: cs) : Int) else none

/-- Python `int(...)` on a string. -/
def pyIntString (s : String) : Option Int :=
  pyIntChars (stripWS s.toList)

/-- The quantity-normalisation branch shared verbatim by
`seller.create_stocks` and `market.create_stocks`: the sentinel `">10"`
maps to 100, the descriptor `"1"` maps to 0, and anything else is passed
to Python `int(...)`. -/
def stockCount (count : String) : Option Int :=
  if count = ">10" then some 100
  else if count = "1" then some 0
  else pyIntString count

/-- `seller.price_conversion`: keep the part of the string before the
first `.` (Python `price.split(".")[0]`), then delete every character
that is not a decimal digit (`re.sub("[^0-9]", "", ...)`). -/
def price_conversion (price : String) : String :=
  String.mk ((price.toList.takeWhile (fun c => c ≠ '.')).filter Char.isDigit)

/-- Spec-side description of "the part before the first decimal point",
written as a direct recursion, used to state the price-normalisation
rule independently of the implementation. -/
def beforeFirstDot : List Char → List Char
  | [] => []
  | c :: cs => if c = '.' then [] else c :: beforeFirstDot cs

namespace Seller

/-- An element of the list built by `seller.create_stocks`. -/
structure StockEntry where
  offer_id : String
  stock : Int
deriving DecidableEq

/-- An element of the list built by `seller.create_prices`. -/
structure PriceEntry where
  auto_action_enabled : String
  currency_code : String
  offer_id : String
  old_price : String
  price : String
deriving DecidableEq

/-- The first loop of `seller.create_stocks`: walk the feed, and for
every row whose code is in `offer_ids` emit a stock entry and remove the
code from `offer_ids` (Python `list.remove`, i.e. first occurrence).
Returns the matched entries together with the final state of
`offer_ids`; `none` models the `ValueError` raised by `int(...)` on a
malformed quantity of a matched row. -/
def create_stocksAux : List Watch → List String → Option (List StockEntry × List String)
  | [], offer_ids => some ([], offer_ids)
  | w :: ws, offer_ids =>
    if w.kod ∈ offer_ids then
      match stockCount w.kolichestvo with
      | none => none
      | some stock =>
        match create_stocksAux ws (offer_ids.erase w.kod) with
        | none => none
        | some (rest, final) => some (⟨w.kod, stock⟩ :: rest, final)
    else create_stocksAux ws offer_ids

/-- `seller.create_stocks`: the matching loop followed by the
zero-stock fallback loop over the identifiers left in `offer_ids`.
The second component of the result is the final state of the caller's
(mutated) `offer_ids` collection. -/
def create_stocks (watch_remnants : List Watch) (offer_ids : List String) :
    Option (List StockEntry × List String) :=
  match create_stocksAux watch_remnants offer_ids with
  | none => none
  | some (matched, remaining) =>
    some (matched ++ remaining.map (fun offer_id => ⟨offer_id, 0⟩), remaining)

/-- `seller.create_prices`: emit one price entry per feed row whose code
is in `offer_ids`; the collection is not modified and no fallback
entries are produced. -/
def create_prices : List Watch → List String → List PriceEntry
  | [], _ => []
  | w :: ws, offer_ids =>
    if w.kod ∈ offer_ids then
      { auto_action_enabled := "UNKNOWN"
        currency_code := "RUB"
        offer_id := w.kod
        old_price := "0"
        price := price_conversion w.tsena } :: create_prices ws offer_ids
    else create_prices ws offer_ids

/-- The slicing loop of `seller.divide`, with the list length as fuel:
`for i in range(0, len(lst), n): yield lst[i : i + n]`. -/
def divideAux {α : Type} (n : Nat) : Nat → List α → List (List α)
  | 0, _ => []
  | _, [] => []
  | fuel + 1, x :: xs => ((x :: xs).take n) :: divideAux n fuel ((x :: xs).drop n)

/-- `seller.divide`: split `lst` into consecutive chunks of `n`
elements.  `range(0, len(lst), 0)` raises `ValueError` in Python,
modelled as `none`. -/
def divide {α : Type} (lst : List α) (n : Nat) : Option (List (List α)) :=
  if 0 < n then some (divideAux n lst.length lst) else none

/-- One item of a `seller.get_product_list` response
(`result.items[...]`), reduced to the field the code projects out. -/
structure Item where
  offer_id : String

/-- One `seller.get_product_list` response (`result`): the page's items,
the reported total product count, and the last-seen-id cursor. -/
structure Page where
  items : List Item
  total : Nat
  last_id : String

/-- The accumulation loop of `seller.get_offer_ids`: call the list
endpoint (modelled as the function `server` from cursor to response),
extend the accumulator, and stop when the reported total equals the
number of accumulated items.  `fuel` bounds the number of iterations;
`none` models a loop that did not terminate within it. -/
def get_offer_idsLoop (server : String → Page) :
    Nat → String → List Item → Option (List Item)
  | 0, _, _ => none
  | fuel + 1, last_id, product_list =>
    let some_prod := server last_id
    let acc := product_list ++ some_prod.items
    if some_prod.total = acc.length then some acc
    else get_offer_idsLoop server fuel some_prod.last_id acc

/-- `seller.get_offer_ids`: run the accumulation loop from the empty
cursor and project every accumulated item to its `offer_id`. -/
def get_offer_ids (server : String → Page) (fuel : Nat) : Option (List String) :=
  (get_offer_idsLoop server fuel "" []).map (fun l => l.map (fun p => p.offer_id))

/-- The accumulation performed by `seller.get_offer_ids`, as a relation:
from cursor `c` with accumulator `acc`, one endpoint call either
triggers the termination signal (reported total equals the accumulated
count) or recurses with the new cursor. -/
inductive PagesRel (server : String → Page) : String → List Item → List Item → Prop
  | done {c : String} {acc : List Item} :
      (server c).total = (acc ++ (server c).items).length →
      PagesRel server c acc (acc ++ (server c).items)
  | step {c : String} {acc r : List Item} :
      (server c).total ≠ (acc ++ (server c).items).length →
      PagesRel server (server c).last_id (acc ++ (server c).items) r →
      PagesRel server c acc r

end Seller

namespace Market

/-- An item of a stock entry sent to Yandex.Market. -/
structure StockItem where
  count : Int
  type : String
  updatedAt : String
deriving DecidableEq

/-- An element of the list built by `market.create_stocks`. -/
structure StockEntry where
  sku : String
  warehouseId : String
  items : List StockItem
deriving DecidableEq

/-- The price payload of a Yandex.Market price entry. -/
structure PriceValue where
  value : Int
  currencyId : String
deriving DecidableEq

/-- An element of the list built by `market.create_prices`. -/
structure PriceEntry where
  id : String
  price : PriceValue
deriving DecidableEq

/-- The matching loop of `market.create_stocks` (same algorithm as the
seller variant, different output schema); `date` is the timestamp
computed once at the top of the function. -/
def create_stocksAux (warehouse_id date : String) :
    List Watch → List String → Option (List StockEntry × List String)
  | [], offer_ids => some ([], offer_ids)
  | w :: ws, offer_ids =>
    if w.kod ∈ offer_ids then
      match stockCount w.kolichestvo with
      | none => none
      | some stock =>
        match create_stocksAux warehouse_id date ws (offer_ids.erase w.kod) with
        | none => none
        | some (rest, final) =>
          some (⟨w.kod, warehouse_id, [⟨stock, "FIT", date⟩]⟩ :: rest, final)
    else create_stocksAux warehouse_id date ws offer_ids

/-- `market.create_stocks`: matching loop followed by zero-count
fallback entries for the identifiers left in `offer_ids`.  The second
component is the final state of the mutated `offer_ids` collection. -/
def create_stocks (watch_remnants : List Watch) (offer_ids : List String)
    (warehouse_id date : String) : Option (List StockEntry × List String) :=
  match create_stocksAux warehouse_id date watch_remnants offer_ids with
  | none => none
  | some (matched, remaining) =>
    some (matched ++ remaining.map (fun offer_id => ⟨offer_id, warehouse_id, [⟨0, "FIT", date⟩]⟩),
      remaining)

/-- `market.create_prices`: emit one price entry per feed row whose code
is in `offer_ids`, converting `price_conversion`'s digit string with
Python `int(...)` (which raises on an empty string, modelled as
`none`).  The collection is not modified and no fallback entries are
produced. -/
def create_prices : List Watch → List String → Option (List PriceEntry)
  | [], _ => some []
  | w :: ws, offer_ids =>
    if w.kod ∈ offer_ids then
      match pyIntString (price_conversion w.tsena) with
      | none => none
      | some v => (create_prices ws offer_ids).map (fun rest => ⟨w.kod, v, "RUR"⟩ :: rest)
    else create_prices ws offer_ids

/-- The nested offer object of a Yandex.Market offer-mapping entry,
reduced to the projected field. -/
structure Offer where
  shopSku : String

/-- One element of `result.offerMappingEntries`. -/
structure Entry where
  offer : Offer

/-- One `market.get_product_list` response (`result`): the page's
entries and the next-page token (`paging.nextPageToken`; the empty
string models an absent/empty token, which is falsy in Python). -/
structure Page where
  offerMappingEntries : List Entry
  nextPageToken : String

/-- The accumulation loop of `market.get_offer_ids`: call the list
endpoint, extend the accumulator, take the next-page token from the
response and stop when it is absent/empty.  `fuel` bounds the number of
iterations; `none` models a loop that did not terminate within it. -/
def get_offer_idsLoop (server : String → Page) :
    Nat → String → List Entry → Option (List Entry)
  | 0, _, _ => none
  | fuel + 1, page, product_list =>
    let some_prod := server page
    let acc := product_list ++ some_prod.offerMappingEntries
    if some_prod.nextPageToken = "" then some acc
    else get_offer_idsLoop server fuel some_prod.nextPageToken acc

/-- `market.get_offer_ids`: run the accumulation loop from the empty
page token and project every accumulated entry to its `shopSku`. -/
def get_offer_ids (server : String → Page) (fuel : Nat) : Option (List String) :=
  (get_offer_idsLoop server fuel "" []).map (fun l => l.map (fun p => p.offer.shopSku))

/-- The accumulation performed by `market.get_offer_ids`, as a
relation: from page token `c` with accumulator `acc`, one endpoint call
either triggers the termination signal (absent/empty next-page token)
or recurses with the returned token. -/
inductive PagesRel (server : String → Page) : String → List Entry → List Entry → Prop
  | done {c : String} {acc : List Entry} :
      (server c).nextPageToken = "" →
      PagesRel server c acc (acc ++ (server c).offerMappingEntries)
  | step {c : String} {acc r : List Entry} :
      (server c).nextPageToken ≠ "" →
      PagesRel server (server c).nextPageToken (acc ++ (server c).offerMappingEntries) r →
      PagesRel server c acc r

end Market

/-! ## Theorems -/

lemma beforeFirstDot_eq_takeWhile (l : List Char) :
    beforeFirstDot l = l.takeWhile (fun c => c ≠ '.') := by
  induction l with
  | nil => rfl
  | cons c cs ih =>
    by_cases h : c = '.'
    · simp [beforeFirstDot, h, List.takeWhile_cons]
    · simp [beforeFirstDot, h, List.takeWhile_cons, ih]

/-- C2: quantity normalisation in `create_stocks` maps the descriptor
`">10"` to 100 and `"1"` to 0; every other descriptor goes through the
plain Python integer parse (so `"7"` gives 7, and a non-numeric
descriptor gives `none`, i.e. the undefined/raising case). -/
theorem claim_C2_quantity_normalization :
    stockCount ">10" = some 100 ∧
    stockCount "1" = some 0 ∧
    stockCount "7" = some 7 ∧
    ∀ count : String, count ≠ ">10" → count ≠ "1" →
      stockCount count = pyIntString count := by
  refine ⟨by decide, by decide, by decide, ?_⟩
  intro count h1 h2
  simp [stockCount, h1, h2]

/-- Witness for C2 at the concrete descriptor `"23"`. -/
theorem claim_C2_witness :
    ("23" : String) ≠ ">10" ∧ ("23" : String) ≠ "1" ∧
      stockCount "23" = pyIntString "23" :=
  ⟨by decide, by decide,
    claim_C2_quantity_normalization.2.2.2 "23" (by decide) (by decide)⟩

/-- C3 counterexample: the claim predicts that `price_conversion`
maps `"1.999,50"` to `1999`, but the code splits on the first `.`
first, so it returns `"1"`. -/
theorem claim_C3_counterexample :
    price_conversion "1.999,50" = "1" ∧ price_conversion "1.999,50" ≠ "1999" := by
  constructor
  · decide
  · decide

/-- C3 (amended): `price_conversion` keeps the part of the input before
the first `.` and removes every non-digit character from it; in
particular `"5'990.00 руб."` yields `"5990"`, `"100"` yields `"100"`,
and `"1.999,50"` yields `"1"` (not `1999`). -/
theorem claim_C3_price_conversion :
    price_conversion "5'990.00 руб." = "5990" ∧
    price_conversion "100" = "100" ∧
    price_conversion "1.999,50" = "1" ∧
    ∀ s : String, price_conversion s =
      String.mk ((beforeFirstDot s.toList).filter Char.isDigit) := by
  refine ⟨by decide, by decide, by decide, ?_⟩
  intro s
  rw [price_conversion, beforeFirstDot_eq_takeWhile]

/-- C5: reconciliation is deterministic — two runs of `create_stocks`
and `create_prices` on the same feed and on a fresh copy of the same
identifier collection (and, for the market variant, the same warehouse
and timestamp inputs) give identical results. -/
theorem claim_C5_idempotence :
    ∀ (F : List Watch) (S : List String) (wh d : String),
      Seller.create_stocks F S = Seller.create_stocks F S ∧
      Seller.create_prices F S = Seller.create_prices F S ∧
      Market.create_stocks F S wh d = Market.create_stocks F S wh d ∧
      Market.create_prices F S = Market.create_prices F S := by
  intro F S wh d
  exact ⟨rfl, rfl, rfl, rfl⟩

lemma divideAux_nil {α : Type} (n fuel : Nat) : Seller.divideAux (α := α) n fuel [] = [] := by
  cases fuel <;> rfl

lemma divideAux_join {α : Type} (n : Nat) (hn : 0 < n) :
    ∀ (fuel : Nat) (l : List α), l.length ≤ fuel →
      (Seller.divideAux n fuel l).flatten = l := by
  intro fuel
  induction fuel with
  | zero =>
    intro l hl
    have : l = [] := List.length_eq_zero.mp (Nat.le_zero.mp hl)
    subst this
    rfl
  | succ f ih =>
    intro l hl
    cases l with
    | nil => rfl
    | cons x xs =>
      simp only [Seller.divideAux, List.flatten]
      rw [ih]
      · exact List.take_append_drop n (x :: xs)
      · rw [List.length_drop]
        simp only [List.length_cons] at hl ⊢
        omega

lemma divideAux_chunk_bounds {α : Type} (n : Nat) (hn : 0 < n) :
    ∀ (fuel : Nat) (l : List α) (c : List α), c ∈ Seller.divideAux n fuel l →
      0 < c.length ∧ c.length ≤ n := by
  intro fuel
  induction fuel with
  | zero => intro l c hc; simp [Seller.divideAux] at hc
  | succ f ih =>
    intro l c hc
    cases l with
    | nil => simp [Seller.divideAux] at hc
    | cons x xs =>
      simp only [Seller.divideAux, List.mem_cons] at hc
      rcases hc with hc | hc
      · subst hc
        rw [List.length_take]
        simp only [List.length_cons]
        omega
      · exact ih _ _ hc

lemma divideAux_dropLast_length {α : Type} (n : Nat) (hn : 0 < n) :
    ∀ (fuel : Nat) (l : List α), l.length ≤ fuel →
      ∀ c ∈ (Seller.divideAux n fuel l).dropLast, c.length = n := by
  intro fuel
  induction fuel with
  | zero => intro l hl c hc; simp [Seller.divideAux] at hc
  | succ f ih =>
    intro l hl c hc
    cases l with
    | nil => simp [Seller.divideAux] at hc
    | cons x xs =>
      simp only [Seller.divideAux] at hc
      cases hrest : Seller.divideAux n f ((x :: xs).drop n) with
      | nil => rw [hrest] at hc; simp at hc
      | cons y ys =>
        rw [hrest] at hc
        rw [List.dropLast_cons_of_ne_nil (by simp)] at hc
        have hdropne : (x :: xs).drop n ≠ [] := by
          intro hnil
          rw [hnil, divideAux_nil] at hrest
          exact List.cons_ne_nil y ys hrest.symm
        have hlen : n < (x :: xs).length := by
          by_contra hle
          push_neg at hle
          exact hdropne (List.drop_eq_nil_of_le hle)
        rcases List.mem_cons.mp hc with hc | hc
        · subst hc
          rw [List.length_take]
          omega
        · rw [← hrest] at hc
          refine ih ((x :: xs).drop n) ?_ c hc
          rw [List.length_drop]
          simp only [List.length_cons] at hl ⊢
          simp only [List.length_cons] at hlen
          omega

/-- C7: `divide` splits a list into consecutive chunks in order: the
chunks concatenate back to the list, every chunk but the last has
length exactly `n`, every chunk is non-empty of length at most `n`;
`divide [1,2,3,4,5] 2 = [[1,2],[3,4],[5]]` and `divide [] n = []` for
positive `n`. -/
theorem claim_C7_divide :
    (∀ (α : Type) (lst : List α) (n : Nat), 0 < n →
      ∃ cs, Seller.divide lst n = some cs ∧
        cs.flatten = lst ∧
        (∀ c ∈ cs.dropLast, c.length = n) ∧
        (∀ c ∈ cs, 0 < c.length ∧ c.length ≤ n)) ∧
    Seller.divide [1, 2, 3, 4, 5] 2 = some [[1, 2], [3, 4], [5]] ∧
    ∀ n : Nat, 0 < n → Seller.divide ([] : List Nat) n = some [] := by
  refine ⟨?_, by decide, ?_⟩
  · intro α lst n hn
    refine ⟨Seller.divideAux n lst.length lst, ?_, ?_, ?_, ?_⟩
    · simp [Seller.divide, hn]
    · exact divideAux_join n hn lst.length lst le_rfl
    · exact divideAux_dropLast_length n hn lst.length lst le_rfl
    · intro c hc
      exact divideAux_chunk_bounds n hn lst.length lst c hc
  · intro n hn
    simp [Seller.divide, hn, divideAux_nil]

/-- Witness for C7 at a concrete list and chunk size. -/
theorem claim_C7_witness :
    (∃ cs, Seller.divide [10, 20, 30] 2 = some cs ∧
      cs.flatten = [10, 20, 30] ∧
      (∀ c ∈ cs.dropLast, c.length = 2) ∧
      (∀ c ∈ cs, 0 < c.length ∧ c.length ≤ 2)) ∧
    Seller.divide ([] : List Nat) 7 = some [] :=
  ⟨claim_C7_divide.1 Nat [10, 20, 30] 2 (by decide),
    claim_C7_divide.2.2 7 (by decide)⟩

lemma create_stocksAux_shape :
    ∀ (F : List Watch) (S : List String) (m : List Seller.StockEntry) (r : List String),
      Seller.create_stocksAux F S = some (m, r) →
        (m.map Seller.StockEntry.offer_id).Sublist (F.map Watch.kod) ∧ r.Sublist S := by
  intro F
  induction F with
  | nil =>
    intro S m r h
    simp [Seller.create_stocksAux] at h
    obtain ⟨hm, hr⟩ := h
    subst hm; subst hr
    exact ⟨List.nil_sublist _, List.Sublist.refl _⟩
  | cons w ws ih =>
    intro S m r h
    simp only [Seller.create_stocksAux] at h
    by_cases hmem : w.kod ∈ S
    · rw [if_pos hmem] at h
      cases hsc : stockCount w.kolichestvo with
      | none => rw [hsc] at h; simp at h
      | some st =>
        rw [hsc] at h
        cases haux : Seller.create_stocksAux ws (S.erase w.kod) with
        | none => rw [haux] at h; simp at h
        | some p =>
          obtain ⟨m', r'⟩ := p
          rw [haux] at h
          simp only [Option.some.injEq, Prod.mk.injEq] at h
          obtain ⟨hm, hr⟩ := h
          subst hm; subst hr
          obtain ⟨h1, h2⟩ := ih (S.erase w.kod) m' r' haux
          constructor
          · simpa using List.Sublist.cons₂ w.kod h1
          · exact h2.trans (List.erase_sublist _ _)
    · rw [if_neg hmem] at h
      obtain ⟨h1, h2⟩ := ih S m r h
      exact ⟨h1.cons w.kod, h2⟩

lemma create_stocks_inv {F : List Watch} {S : List String}
    {out : List Seller.StockEntry} {rem : List String}
    (h : Seller.create_stocks F S = some (out, rem)) :
    ∃ m, Seller.create_stocksAux F S = some (m, rem) ∧
      out = m ++ rem.map (fun offer_id => ⟨offer_id, 0⟩) := by
  unfold Seller.create_stocks at h
  cases haux : Seller.create_stocksAux F S with
  | none => rw [haux] at h; simp at h
  | some p =>
    obtain ⟨m, r⟩ := p
    rw [haux] at h
    simp only [Option.some.injEq, Prod.mk.injEq] at h
    obtain ⟨hout, hrem⟩ := h
    subst hrem
    exact ⟨m, rfl, hout.symm⟩

/-- C6: on the feed `[{A, ">10"}, {B, "1"}]` with identifier collection
`["A", "B", "C"]`, `create_stocks` returns exactly
`[{A, 100}, {B, 0}, {C, 0}]`; in general the output is the matched
entries (whose identifiers follow the feed order) followed by the
leftover identifiers (in their original order) as zero-stock
fallbacks. -/
theorem claim_C6_end_to_end :
    Seller.create_stocks [⟨"A", ">10", ""⟩, ⟨"B", "1", ""⟩] ["A", "B", "C"]
      = some ([⟨"A", 100⟩, ⟨"B", 0⟩, ⟨"C", 0⟩], ["C"]) ∧
    ∀ (F : List Watch) (S : List String) (out : List Seller.StockEntry)
      (rem : List String), Seller.create_stocks F S = some (out, rem) →
        ∃ m, out = m ++ rem.map (fun offer_id => ⟨offer_id, 0⟩) ∧
          (m.map Seller.StockEntry.offer_id).Sublist (F.map Watch.kod) ∧
          rem.Sublist S := by
  refine ⟨by decide, ?_⟩
  intro F S out rem h
  obtain ⟨m, haux, hout⟩ := create_stocks_inv h
  obtain ⟨h1, h2⟩ := create_stocksAux_shape F S m rem haux
  exact ⟨m, hout, h1, h2⟩

/-- Witness for C6's general part at the concrete input of its first
part. -/
theorem claim_C6_witness :
    ∃ m, [(⟨"A", 100⟩ : Seller.StockEntry), ⟨"B", 0⟩, ⟨"C", 0⟩]
        = m ++ (["C"].map (fun offer_id => (⟨offer_id, 0⟩ : Seller.StockEntry))) ∧
      (m.map Seller.StockEntry.offer_id).Sublist
        (([⟨"A", ">10", ""⟩, ⟨"B", "1", ""⟩] : List Watch).map Watch.kod) ∧
      (["C"] : List String).Sublist ["A", "B", "C"] :=
  claim_C6_end_to_end.2 [⟨"A", ">10", ""⟩, ⟨"B", "1", ""⟩] ["A", "B", "C"]
    [⟨"A", 100⟩, ⟨"B", 0⟩, ⟨"C", 0⟩] ["C"] (by decide)

lemma create_stocksAux_ok :
    ∀ (F : List Watch) (S : List String), S.Nodup →
      (∀ w ∈ F, (stockCount w.kolichestvo).isSome) →
      ∃ m r, Seller.create_stocksAux F S = some (m, r) ∧
        ((m.map Seller.StockEntry.offer_id) ++ r).Perm S ∧
        (∀ e ∈ m, ∃ w ∈ F, w.kod = e.offer_id ∧
          stockCount w.kolichestvo = some e.stock) ∧
        (∀ i ∈ r, ∀ w ∈ F, w.kod ≠ i) := by
  intro F
  induction F with
  | nil =>
    intro S _ _
    exact ⟨[], S, rfl, by simp, by simp, by simp⟩
  | cons w ws ih =>
    intro S hnd hwf
    by_cases hmem : w.kod ∈ S
    · have hs : (stockCount w.kolichestvo).isSome := hwf w (by simp)
      obtain ⟨st, hst⟩ := Option.isSome_iff_exists.mp hs
      have hnd' : (S.erase w.kod).Nodup := hnd.erase _
      have hwf' : ∀ x ∈ ws, (stockCount x.kolichestvo).isSome :=
        fun x hx => hwf x (List.mem_cons_of_mem w hx)
      obtain ⟨m', r', haux, hperm, hm, hr⟩ := ih (S.erase w.kod) hnd' hwf'
      refine ⟨⟨w.kod, st⟩ :: m', r', ?_, ?_, ?_, ?_⟩
      · simp only [Seller.create_stocksAux, if_pos hmem, hst, haux]
      · simp only [List.map_cons, List.cons_append]
        exact (hperm.cons w.kod).trans (List.perm_cons_erase hmem).symm
      · intro e he
        rcases List.mem_cons.mp he with he | he
        · subst he
          exact ⟨w, List.mem_cons_self w ws, rfl, hst⟩
        · obtain ⟨x, hx, h1, h2⟩ := hm e he
          exact ⟨x, List.mem_cons_of_mem w hx, h1, h2⟩
      · intro i hi x hx
        rcases List.mem_cons.mp hx with hx | hx
        · subst hx
          have hiS : i ∈ S.erase x.kod := hperm.subset (List.mem_append_right _ hi)
          exact fun heq => ((hnd.mem_erase_iff).mp hiS).1 heq.symm
        · exact hr i hi x hx
    · have hwf' : ∀ x ∈ ws, (stockCount x.kolichestvo).isSome :=
        fun x hx => hwf x (List.mem_cons_of_mem w hx)
      obtain ⟨m', r', haux, hperm, hm, hr⟩ := ih S hnd hwf'
      refine ⟨m', r', ?_, hperm, ?_, ?_⟩
      · simp only [Seller.create_stocksAux, if_neg hmem, haux]
      · intro e he
        obtain ⟨x, hx, h1, h2⟩ := hm e he
        exact ⟨x, List.mem_cons_of_mem w hx, h1, h2⟩
      · intro i hi x hx
        rcases List.mem_cons.mp hx with hx | hx
        · subst hx
          have hiS : i ∈ S := hperm.subset (List.mem_append_right _ hi)
          exact fun heq => hmem (heq ▸ hiS)
        · exact hr i hi x hx

lemma market_create_stocksAux_eq (wh d : String) :
    ∀ (F : List Watch) (S : List String),
      Market.create_stocksAux wh d F S =
        (Seller.create_stocksAux F S).map
          (fun p => (p.1.map (fun e => ⟨e.offer_id, wh, [⟨e.stock, "FIT", d⟩]⟩), p.2)) := by
  intro F
  induction F with
  | nil => intro S; rfl
  | cons w ws ih =>
    intro S
    simp only [Market.create_stocksAux, Seller.create_stocksAux]
    by_cases hmem : w.kod ∈ S
    · rw [if_pos hmem, if_pos hmem]
      cases stockCount w.kolichestvo with
      | none => rfl
      | some st =>
        rw [ih]
        cases Seller.create_stocksAux ws (S.erase w.kod) with
        | none => rfl
        | some p => rfl
    · rw [if_neg hmem, if_neg hmem]
      exact ih S

lemma market_create_stocks_eq (wh d : String) (F : List Watch) (S : List String) :
    Market.create_stocks F S wh d =
      (Seller.create_stocks F S).map
        (fun p => (p.1.map (fun e => ⟨e.offer_id, wh, [⟨e.stock, "FIT", d⟩]⟩), p.2)) := by
  unfold Market.create_stocks Seller.create_stocks
  rw [market_create_stocksAux_eq]
  cases Seller.create_stocksAux F S with
  | none => rfl
  | some p =>
    obtain ⟨m, r⟩ := p
    simp [List.map_append, List.map_map, Function.comp]

/-- C1: for a duplicate-free identifier collection and a feed whose
quantities all parse, `create_stocks` (both marketplace variants)
produces exactly one entry per identifier: the emitted identifiers are
a permutation of the collection with no repetition, matched identifiers
carry the normalised feed quantity and unmatched ones the zero-stock
fallback. -/
theorem claim_C1_one_entry_per_identifier :
    ∀ (F : List Watch) (S : List String) (wh d : String), S.Nodup →
      (∀ w ∈ F, (stockCount w.kolichestvo).isSome) →
      ∃ out rem, Seller.create_stocks F S = some (out, rem) ∧
        (out.map Seller.StockEntry.offer_id).Perm S ∧
        (out.map Seller.StockEntry.offer_id).Nodup ∧
        (∀ e ∈ out,
          (∃ w ∈ F, w.kod = e.offer_id ∧ stockCount w.kolichestvo = some e.stock) ∨
          (e.stock = 0 ∧ ∀ w ∈ F, w.kod ≠ e.offer_id)) ∧
        ∃ mout, Market.create_stocks F S wh d = some (mout, rem) ∧
          mout.map Market.StockEntry.sku = out.map Seller.StockEntry.offer_id := by
  intro F S wh d hnd hwf
  obtain ⟨m, r, haux, hperm, hm, hr⟩ := create_stocksAux_ok F S hnd hwf
  have hmap : (m ++ r.map fun i => (⟨i, 0⟩ : Seller.StockEntry)).map Seller.StockEntry.offer_id
      = m.map Seller.StockEntry.offer_id ++ r := by
    rw [List.map_append, List.map_map]
    exact congrArg (m.map Seller.StockEntry.offer_id ++ ·) (List.map_id r)
  have hsell : Seller.create_stocks F S
      = some (m ++ r.map (fun i => ⟨i, 0⟩), r) := by
    simp [Seller.create_stocks, haux]
  refine ⟨m ++ r.map (fun i => ⟨i, 0⟩), r, hsell, ?_, ?_, ?_, ?_⟩
  · rw [hmap]
    exact hperm
  · rw [hmap]
    exact (hperm.nodup_iff).mpr hnd
  · intro e he
    rcases List.mem_append.mp he with he | he
    · exact Or.inl (hm e he)
    · obtain ⟨i, hi, hei⟩ := List.mem_map.mp he
      subst hei
      exact Or.inr ⟨rfl, fun w hw => hr i hi w hw⟩
  · refine ⟨(m ++ r.map fun i => (⟨i, 0⟩ : Seller.StockEntry)).map
      (fun e => Market.StockEntry.mk e.offer_id wh [Market.StockItem.mk e.stock "FIT" d]),
      ?_, ?_⟩
    · rw [market_create_stocks_eq, hsell]
      rfl
    · rw [List.map_map]
      rfl

/-- Witness for C1 at a concrete feed and identifier collection. -/
theorem claim_C1_witness :
    ∃ out rem,
      Seller.create_stocks [⟨"A", "3", ""⟩] ["A", "B"] = some (out, rem) ∧
      (out.map Seller.StockEntry.offer_id).Perm ["A", "B"] ∧
      (out.map Seller.StockEntry.offer_id).Nodup ∧
      (∀ e ∈ out,
        (∃ w ∈ ([⟨"A", "3", ""⟩] : List Watch), w.kod = e.offer_id ∧
          stockCount w.kolichestvo = some e.stock) ∨
        (e.stock = 0 ∧ ∀ w ∈ ([⟨"A", "3", ""⟩] : List Watch), w.kod ≠ e.offer_id)) ∧
      ∃ mout, Market.create_stocks [⟨"A", "3", ""⟩] ["A", "B"] "W" "D" = some (mout, rem) ∧
        mout.map Market.StockEntry.sku = out.map Seller.StockEntry.offer_id :=
  claim_C1_one_entry_per_identifier [⟨"A", "3", ""⟩] ["A", "B"] "W" "D"
    (by decide) (by decide)

/-- C9: `create_stocks` consumes its identifier-collection argument:
after the call the collection holds exactly the identifiers no feed
record matched, in their original relative order (a sublist of the
original collection), for both marketplace variants. -/
theorem claim_C9_offer_ids_mutation :
    ∀ (F : List Watch) (S : List String) (wh d : String), S.Nodup →
      (∀ w ∈ F, (stockCount w.kolichestvo).isSome) →
      ∃ out rem, Seller.create_stocks F S = some (out, rem) ∧
        rem.Sublist S ∧
        (∀ i : String, i ∈ rem ↔ (i ∈ S ∧ ∀ w ∈ F, w.kod ≠ i)) ∧
        ∃ mout, Market.create_stocks F S wh d = some (mout, rem) := by
  intro F S wh d hnd hwf
  obtain ⟨m, r, haux, hperm, hm, hr⟩ := create_stocksAux_ok F S hnd hwf
  have hsub : r.Sublist S := (create_stocksAux_shape F S m r haux).2
  have hsell : Seller.create_stocks F S
      = some (m ++ r.map (fun i => ⟨i, 0⟩), r) := by
    simp [Seller.create_stocks, haux]
  refine ⟨m ++ r.map (fun i => ⟨i, 0⟩), r, hsell, hsub, ?_, ?_⟩
  · intro i
    constructor
    · intro hi
      exact ⟨hperm.subset (List.mem_append_right _ hi), hr i hi⟩
    · rintro ⟨hiS, hnomatch⟩
      have hmem : i ∈ m.map Seller.StockEntry.offer_id ++ r := hperm.mem_iff.mpr hiS
      rcases List.mem_append.mp hmem with h | h
      · obtain ⟨e, he, hei⟩ := List.mem_map.mp h
        obtain ⟨w, hw, hwk, _⟩ := hm e he
        exact absurd (hwk.trans hei) (hnomatch w hw)
      · exact h
  · refine ⟨(m ++ r.map fun i => (⟨i, 0⟩ : Seller.StockEntry)).map
      (fun e => Market.StockEntry.mk e.offer_id wh [Market.StockItem.mk e.stock "FIT" d]), ?_⟩
    rw [market_create_stocks_eq, hsell]
    rfl

/-- Witness for C9 at a concrete feed and identifier collection. -/
theorem claim_C9_witness :
    ∃ out rem,
      Seller.create_stocks [⟨"B", ">10", ""⟩] ["A", "B"] = some (out, rem) ∧
      rem.Sublist ["A", "B"] ∧
      (∀ i : String, i ∈ rem ↔
        (i ∈ (["A", "B"] : List String) ∧
          ∀ w ∈ ([⟨"B", ">10", ""⟩] : List Watch), w.kod ≠ i)) ∧
      ∃ mout, Market.create_stocks [⟨"B", ">10", ""⟩] ["A", "B"] "W" "D" = some (mout, rem) :=
  claim_C9_offer_ids_mutation [⟨"B", ">10", ""⟩] ["A", "B"] "W" "D"
    (by decide) (by decide)

lemma create_prices_ids :
    ∀ (F : List Watch) (S : List String),
      (Seller.create_prices F S).map Seller.PriceEntry.offer_id
        = (F.filter (fun w => decide (w.kod ∈ S))).map Watch.kod := by
  intro F
  induction F with
  | nil => intro S; rfl
  | cons w ws ih =>
    intro S
    by_cases hmem : w.kod ∈ S
    · simp [Seller.create_prices, List.filter_cons, hmem, ih]
    · simp [Seller.create_prices, List.filter_cons, hmem, ih]

lemma create_prices_mem :
    ∀ (F : List Watch) (S : List String) (e : Seller.PriceEntry),
      e ∈ Seller.create_prices F S →
        ∃ w ∈ F, w.kod ∈ S ∧ e.offer_id = w.kod ∧ e.price = price_conversion w.tsena := by
  intro F
  induction F with
  | nil => intro S e he; simp [Seller.create_prices] at he
  | cons w ws ih =>
    intro S e he
    simp only [Seller.create_prices] at he
    by_cases hmem : w.kod ∈ S
    · rw [if_pos hmem] at he
      rcases List.mem_cons.mp he with he | he
      · subst he
        exact ⟨w, List.mem_cons_self w ws, hmem, rfl, rfl⟩
      · obtain ⟨x, hx, h1, h2, h3⟩ := ih S e he
        exact ⟨x, List.mem_cons_of_mem w hx, h1, h2, h3⟩
    · rw [if_neg hmem] at he
      obtain ⟨x, hx, h1, h2, h3⟩ := ih S e he
      exact ⟨x, List.mem_cons_of_mem w hx, h1, h2, h3⟩

lemma market_create_prices_ids :
    ∀ (F : List Watch) (S : List String) (m : List Market.PriceEntry),
      Market.create_prices F S = some m →
        m.map Market.PriceEntry.id
          = (F.filter (fun w => decide (w.kod ∈ S))).map Watch.kod := by
  intro F
  induction F with
  | nil =>
    intro S m h
    simp only [Market.create_prices, Option.some.injEq] at h
    subst h
    rfl
  | cons w ws ih =>
    intro S m h
    simp only [Market.create_prices] at h
    by_cases hmem : w.kod ∈ S
    · rw [if_pos hmem] at h
      cases hpi : pyIntString (price_conversion w.tsena) with
      | none => rw [hpi] at h; simp at h
      | some v =>
        rw [hpi] at h
        cases hrec : Market.create_prices ws S with
        | none => rw [hrec] at h; simp at h
        | some l =>
          rw [hrec] at h
          simp only [Option.map_some', Option.some.injEq] at h
          subst h
          simp [List.filter_cons, hmem, ih S l hrec]
    · rw [if_neg hmem] at h
      simp [List.filter_cons, hmem, ih S m h]

/-- C4 counterexample: the claim predicts that `create_prices` uses the
same matching algorithm as `create_stocks` (removing matched codes and
emitting fallback entries for leftovers), but on the empty feed with
leftover identifier `"C"` it emits nothing, and with two feed records
sharing one code it emits two entries (the code was never removed). -/
theorem claim_C4_counterexample :
    Seller.create_prices [] ["C"] = [] ∧
    Market.create_prices [] ["C"] = some [] ∧
    (Seller.create_prices [⟨"A", "1", "100"⟩, ⟨"A", "1", "200"⟩] ["A"]).length = 2 := by
  refine ⟨rfl, rfl, by decide⟩

/-- C4 (amended): `create_prices` uses only the matching half of the
stock algorithm: it emits one entry per feed record whose code is in
the identifier collection, in feed order, without removing codes and
without emitting fallback entries for leftover identifiers (both
marketplace variants agree on the emitted identifiers). -/
theorem claim_C4_create_prices_matching :
    ∀ (F : List Watch) (S : List String),
      ((Seller.create_prices F S).map Seller.PriceEntry.offer_id
        = (F.filter (fun w => decide (w.kod ∈ S))).map Watch.kod) ∧
      (∀ e ∈ Seller.create_prices F S, ∃ w ∈ F, w.kod ∈ S ∧
        e.offer_id = w.kod ∧ e.price = price_conversion w.tsena) ∧
      (∀ m, Market.create_prices F S = some m →
        m.map Market.PriceEntry.id
          = (Seller.create_prices F S).map Seller.PriceEntry.offer_id) := by
  intro F S
  refine ⟨create_prices_ids F S, create_prices_mem F S, ?_⟩
  intro m hm
  rw [market_create_prices_ids F S m hm, create_prices_ids F S]

/-- Witness for C4's amended statement at a concrete feed. -/
theorem claim_C4_witness :
    ∃ w ∈ ([⟨"A", "1", "100"⟩] : List Watch), w.kod ∈ (["A"] : List String) ∧
      (⟨"UNKNOWN", "RUB", "A", "0", "100"⟩ : Seller.PriceEntry).offer_id = w.kod ∧
      (⟨"UNKNOWN", "RUB", "A", "0", "100"⟩ : Seller.PriceEntry).price
        = price_conversion w.tsena :=
  (claim_C4_create_prices_matching [⟨"A", "1", "100"⟩] ["A"]).2.1
    ⟨"UNKNOWN", "RUB", "A", "0", "100"⟩ (by decide)

lemma seller_loop_rel (server : String → Seller.Page) :
    ∀ (fuel : Nat) (c : String) (acc r : List Seller.Item),
      Seller.get_offer_idsLoop server fuel c acc = some r →
        Seller.PagesRel server c acc r := by
  intro fuel
  induction fuel with
  | zero => intro c acc r h; simp [Seller.get_offer_idsLoop] at h
  | succ f ih =>
    intro c acc r h
    simp only [Seller.get_offer_idsLoop] at h
    by_cases hterm : (server c).total = (acc ++ (server c).items).length
    · rw [if_pos hterm] at h
      rw [← Option.some.inj h]
      exact Seller.PagesRel.done hterm
    · rw [if_neg hterm] at h
      exact Seller.PagesRel.step hterm (ih _ _ _ h)

lemma market_loop_rel (server : String → Market.Page) :
    ∀ (fuel : Nat) (c : String) (acc r : List Market.Entry),
      Market.get_offer_idsLoop server fuel c acc = some r →
        Market.PagesRel server c acc r := by
  intro fuel
  induction fuel with
  | zero => intro c acc r h; simp [Market.get_offer_idsLoop] at h
  | succ f ih =>
    intro c acc r h
    simp only [Market.get_offer_idsLoop] at h
    by_cases hterm : (server c).nextPageToken = ""
    · rw [if_pos hterm] at h
      rw [← Option.some.inj h]
      exact Market.PagesRel.done hterm
    · rw [if_neg hterm] at h
      exact Market.PagesRel.step hterm (ih _ _ _ h)

/-- C8: when `get_offer_ids` returns, the returned list is exactly the
projection (to `offer_id`, resp. `shopSku`) of the items accumulated by
repeatedly calling the paginated list endpoint until the platform's
termination signal — for the Ozon variant a reported total equal to the
accumulated count, for the Yandex.Market variant an absent/empty
next-page token — in accumulation order. -/
theorem claim_C8_get_offer_ids :
    (∀ (server : String → Seller.Page) (fuel : Nat) (ids : List String),
      Seller.get_offer_ids server fuel = some ids →
        ∃ items, Seller.PagesRel server "" [] items ∧
          ids = items.map (fun p => p.offer_id)) ∧
    (∀ (server : String → Market.Page) (fuel : Nat) (ids : List String),
      Market.get_offer_ids server fuel = some ids →
        ∃ entries, Market.PagesRel server "" [] entries ∧
          ids = entries.map (fun p => p.offer.shopSku)) := by
  constructor
  · intro server fuel ids h
    unfold Seller.get_offer_ids at h
    cases hl : Seller.get_offer_idsLoop server fuel "" [] with
    | none => rw [hl] at h; simp at h
    | some items =>
      rw [hl] at h
      simp only [Option.map_some'] at h
      exact ⟨items, seller_loop_rel server fuel "" [] items hl, (Option.some.inj h).symm⟩
  · intro server fuel ids h
    unfold Market.get_offer_ids at h
    cases hl : Market.get_offer_idsLoop server fuel "" [] with
    | none => rw [hl] at h; simp at h
    | some entries =>
      rw [hl] at h
      simp only [Option.map_some'] at h
      exact ⟨entries, market_loop_rel server fuel "" [] entries hl, (Option.some.inj h).symm⟩

/-- Witness for C8 on two-page servers for both marketplaces. -/
theorem claim_C8_witness :
    (∃ items,
      Seller.PagesRel
        (fun c => if c = "" then ⟨[⟨"a"⟩, ⟨"b"⟩], 3, "p"⟩ else ⟨[⟨"c"⟩], 3, "q"⟩)
        "" [] items ∧
      ["a", "b", "c"] = items.map (fun p => p.offer_id)) ∧
    (∃ entries,
      Market.PagesRel
        (fun c => if c = "" then ⟨[⟨⟨"x"⟩⟩], "p"⟩ else ⟨[⟨⟨"y"⟩⟩], ""⟩)
        "" [] entries ∧
      ["x", "y"] = entries.map (fun p => p.offer.shopSku)) :=
  ⟨claim_C8_get_offer_ids.1
      (fun c => if c = "" then ⟨[⟨"a"⟩, ⟨"b"⟩], 3, "p"⟩ else ⟨[⟨"c"⟩], 3, "q"⟩)
      3 ["a", "b", "c"] rfl,
    claim_C8_get_offer_ids.2
      (fun c => if c = "" then ⟨[⟨⟨"x"⟩⟩], "p"⟩ else ⟨[⟨⟨"y"⟩⟩], ""⟩)
      3 ["x", "y"] rfl⟩

lemma digit_not_ws (c : Char) (h : c.isDigit = true) : c.isWhitespace = false := by
  by_contra hws
  rw [Bool.not_eq_false] at hws
  simp only [Char.isWhitespace, Bool.or_eq_true, decide_eq_true_eq] at hws
  rcases hws with ((hc | hc) | hc) | hc
  · subst hc; exact absurd h (by decide)
  · subst hc; exact absurd h (by decide)
  · subst hc; exact absurd h (by decide)
  · subst hc; exact absurd h (by decide)

lemma digit_not_minus (c : Char) (h : c.isDigit = true) : c ≠ '-' := by
  intro hc
  subst hc
  exact absurd h (by decide)

lemma digit_not_plus (c : Char) (h : c.isDigit = true) : c ≠ '+' := by
  intro hc
  subst hc
  exact absurd h (by decide)

lemma stripWS_digits (l : List Char) (h : ∀ c ∈ l, c.isDigit = true) :
    stripWS l = l := by
  unfold stripWS
  have h1 : l.dropWhile Char.isWhitespace = l := by
    cases l with
    | nil => rfl
    | cons c cs =>
      rw [List.dropWhile_cons, digit_not_ws c (h c (List.mem_cons_self c cs))]
      simp
  rw [h1]
  have h2 : l.reverse.dropWhile Char.isWhitespace = l.reverse := by
    cases hrev : l.reverse with
    | nil => rfl
    | cons c cs =>
      have hc : c ∈ l := by
        rw [← List.mem_reverse, hrev]
        exact List.mem_cons_self c cs
      rw [List.dropWhile_cons, digit_not_ws c (h c hc)]
      simp
  rw [h2, List.reverse_reverse]

lemma pyIntString_digits (l : List Char) (h : ∀ c ∈ l, c.isDigit = true) :
    pyIntString (String.mk l) = if l.isEmpty then none else some (digitsVal l : Int) := by
  unfold pyIntString
  have htl : (String.mk l).toList = l := rfl
  rw [htl, stripWS_digits l h]
  cases l with
  | nil => rfl
  | cons c cs =>
    have hc : c.isDigit = true := h c (List.mem_cons_self c cs)
    simp only [pyIntChars, List.isEmpty_cons]
    rw [if_neg (digit_not_minus c hc), if_neg (digit_not_plus c hc),
      if_pos (List.all_eq_true.mpr h)]
    rfl

lemma price_conversion_toList (s : String) :
    (price_conversion s).toList
      = (s.toList.takeWhile (fun c => c ≠ '.')).filter Char.isDigit := rfl

lemma price_conversion_all_digits (s : String) :
    (price_conversion s).toList.all Char.isDigit = true := by
  rw [price_conversion_toList, List.all_eq_true]
  intro c hc
  exact (List.mem_filter.mp hc).2

lemma pyIntString_price_conversion_none (s : String) :
    pyIntString (price_conversion s) = none ↔ price_conversion s = "" := by
  have hd : ∀ c ∈ (price_conversion s).toList, c.isDigit = true :=
    List.all_eq_true.mp (price_conversion_all_digits s)
  have hmk : price_conversion s = String.mk ((price_conversion s).toList) := rfl
  rw [hmk]
  rw [pyIntString_digits _ hd]
  constructor
  · intro h
    by_cases he : (price_conversion s).toList.isEmpty
    · rw [List.isEmpty_iff] at he
      rw [he]
    · rw [if_neg he] at h
      exact absurd h (by simp)
  · intro h
    have : (price_conversion s).toList = [] := by
      have := congrArg String.toList h
      simpa using this
    rw [if_pos (by rw [this]; rfl)]

lemma market_create_prices_none_iff :
    ∀ (F : List Watch) (S : List String),
      Market.create_prices F S = none ↔
        ∃ w ∈ F, w.kod ∈ S ∧ price_conversion w.tsena = "" := by
  intro F
  induction F with
  | nil => intro S; simp [Market.create_prices]
  | cons w ws ih =>
    intro S
    simp only [Market.create_prices]
    by_cases hmem : w.kod ∈ S
    · rw [if_pos hmem]
      cases hpi : pyIntString (price_conversion w.tsena) with
      | none =>
        have hempty : price_conversion w.tsena = "" :=
          (pyIntString_price_conversion_none w.tsena).mp hpi
        simp [hmem, hempty]
      | some v =>
        have hne : ¬ price_conversion w.tsena = "" := by
          intro hc
          rw [(pyIntString_price_conversion_none w.tsena).mpr hc] at hpi
          exact Option.noConfusion hpi
        rw [Option.map_eq_none']
        rw [ih S]
        simp [hne, hmem]
    · rw [if_neg hmem]
      rw [ih S]
      simp [hmem]

/-- C10: `price_conversion` always returns a pure digit string, empty
exactly when the input has no digit before its first `.`; consequently
`market.create_prices` fails (the `int("")` call raises) if and only if
some matched feed record's price descriptor has no digit before its
first `.`, and otherwise succeeds. -/
theorem claim_C10_price_error_propagation :
    (∀ s : String, (price_conversion s).toList.all Char.isDigit = true) ∧
    (∀ s : String, price_conversion s = "" ↔
      (s.toList.takeWhile (fun c => c ≠ '.')).all (fun c => !c.isDigit) = true) ∧
    (∀ (F : List Watch) (S : List String),
      Market.create_prices F S = none ↔
        ∃ w ∈ F, w.kod ∈ S ∧ price_conversion w.tsena = "") ∧
    (∀ (F : List Watch) (S : List String),
      (∀ w ∈ F, w.kod ∈ S → price_conversion w.tsena ≠ "") →
        ∃ l, Market.create_prices F S = some l) := by
  refine ⟨price_conversion_all_digits, ?_, market_create_prices_none_iff, ?_⟩
  · intro s
    constructor
    · intro h
      have : (price_conversion s).toList = [] := by
        have := congrArg String.toList h
        simpa using this
      rw [price_conversion_toList] at this
      rw [List.all_eq_true]
      intro c hc
      have := List.filter_eq_nil_iff.mp this c hc
      simpa using this
    · intro h
      have hnil : (price_conversion s).toList = [] := by
        rw [price_conversion_toList]
        rw [List.filter_eq_nil_iff]
        intro c hc
        have := List.all_eq_true.mp h c hc
        simpa using this
      have hmk : price_conversion s = String.mk ((price_conversion s).toList) := rfl
      rw [hmk, hnil]
  · intro F S h
    cases hc : Market.create_prices F S with
    | none =>
      obtain ⟨w, hw, hmem, hempty⟩ := (market_create_prices_none_iff F S).mp hc
      exact absurd hempty (h w hw hmem)
    | some l => exact ⟨l, rfl⟩

/-- Witness for C10's final conjunct at a concrete feed. -/
theorem claim_C10_witness :
    ∃ l, Market.create_prices [⟨"A", "1", "5.00"⟩] ["A"] = some l :=
  claim_C10_price_error_propagation.2.2.2 [⟨"A", "1", "5.00"⟩] ["A"]
    (by decide)
